import Mathlib

/-!
Verification of the quadkey library: a shallow embedding of
`src/quadkey/__init__.py` together with the `TileSystem` helpers it
delegates to, and proofs of the specified properties.

Quadkey strings are embedded as `List Char`; Python integers are `Nat`
where the source guarantees non-negativity and `Int` inside the
`xdifference` loops where intermediate values can go negative.
-/

/-- Error kinds raised at construction time: malformed quadkey string or
geographic point outside the representable range. -/
inductive QKError where
  | InvalidKey
  | InvalidCoordinate
deriving DecidableEq

namespace TileSystem

/-- Modelled from the spec: `valid_key` of the `tile_system` module (not under
`src/`) — true iff the key length is in [1, 23] and every character is one of
the digits 0, 1, 2, 3. -/
def valid_key (key : List Char) : Bool :=
  decide (1 ≤ key.length) && decide (key.length ≤ 23) &&
    key.all fun c => (['0', '1', '2', '3'] : List Char).contains c

/-- Modelled from the spec: `valid_geo` of the `tile_system` module (not under
`src/`) — true iff lat ∈ [-90, 90] and lon ∈ [-180, 180]. -/
def valid_geo (lat lon : ℚ) : Bool :=
  decide (-90 ≤ lat) && decide (lat ≤ 90) && decide (-180 ≤ lon) && decide (lon ≤ 180)

/-- Modelled from the spec: `tile_to_quadkey` of the `tile_system` module (not
under `src/`) — one digit per level, most significant bit first: the digit for
bit `l` adds 1 when bit `l` of tileX is set and 2 when bit `l` of tileY is set,
and the character is obtained by offsetting the code point of the digit 0. -/
def tile_to_quadkey (tile : Nat × Nat) : Nat → List Char
  | 0 => []
  | l + 1 =>
    let d := (if Nat.testBit tile.1 l then 1 else 0) + (if Nat.testBit tile.2 l then 2 else 0)
    Char.ofNat (Char.toNat '0' + d) :: tile_to_quadkey tile l

/-- Modelled from the spec: `quadkey_to_tile` of the `tile_system` module (not
under `src/`) — for each digit from most to least significant, shift tileX and
tileY left by one and or in bit 0 resp. bit 1 of the digit; the level is the
key length. -/
def quadkey_to_tile (key : List Char) : (Nat × Nat) × Nat :=
  (key.foldl (fun t c =>
      let d := Char.toNat c - Char.toNat '0'
      (t.1 * 2 + d % 2, t.2 * 2 + d / 2 % 2)) (0, 0),
   key.length)

/-- Modelled from the spec: `pixel_to_tile` of the `tile_system` module (not
under `src/`) — integer divide each pixel coordinate by 256. -/
def pixel_to_tile (p : Nat × Nat) : Nat × Nat := (p.1 / 256, p.2 / 256)

/-- Clipping a value to a closed interval, as used by the projection. -/
def clip (v lo hi : ℚ) : ℚ := min (max v lo) hi

/-- Modelled from the spec: `geo_to_pixel` of the `tile_system` module (not
under `src/`) — clip the latitude and longitude, apply the spherical-Mercator
forward transform, scale into pixel space.  The transcendental part of the
transform (the map lat ↦ 0.5 − ln((1+sin lat)/(1−sin lat))/(4π), computed with
floating point in the source) cannot be embedded exactly and is abstracted as
the parameter `mercatorY`. -/
def geo_to_pixel (mercatorY : ℚ → ℚ) (geo : ℚ × ℚ) (level : Nat) : Nat × Nat :=
  let lat := clip geo.1 (-85.05112878) 85.05112878
  let lon := clip geo.2 (-180) 180
  let x := (lon + 180) / 360
  let y := mercatorY lat
  let mapSize : ℚ := 256 * 2 ^ level
  ((clip (x * mapSize + 1 / 2) 0 (mapSize - 1)).floor.toNat,
   (clip (y * mapSize + 1 / 2) 0 (mapSize - 1)).floor.toNat)

end TileSystem

/-- The QuadKey value type: wraps the key, the list of characters of the
quadkey string.  The `level` attribute of the Python object is always the
length of the key, so it is a derived function here. -/
structure QuadKey where
  key : List Char
deriving DecidableEq

namespace QuadKey

/-- Source `self.level`, set to `len(key)` at construction. -/
def level (q : QuadKey) : Nat := q.key.length

/-- Source `to_tile`: delegate to `TileSystem.quadkey_to_tile`. -/
def to_tile (q : QuadKey) : (Nat × Nat) × Nat := TileSystem.quadkey_to_tile q.key

/-- Source `children`: empty at level ≥ 23, otherwise append each of the digits
0, 1, 2, 3. -/
def children (q : QuadKey) : List QuadKey :=
  if 23 ≤ q.level then []
  else (['0', '1', '2', '3'] : List Char).map fun c => ⟨q.key ++ [c]⟩

/-- Source `parent`: drop the last character of the key. -/
def parent (q : QuadKey) : QuadKey := ⟨q.key.dropLast⟩

/-- The set of neighbour tiles built by `nearby`: the eight non-zero offsets
applied to the tile, each coordinate taken in absolute value; the Python `set`
is embedded as a deduplicated list. -/
def nearbyTiles (q : QuadKey) : List (Nat × Nat) :=
  let tile := (TileSystem.quadkey_to_tile q.key).1
  let perms : List (Int × Int) :=
    [(-1, -1), (-1, 0), (-1, 1), (0, -1), (0, 1), (1, -1), (1, 0), (1, 1)]
  (perms.map fun p => (((tile.1 : Int) + p.1).natAbs, ((tile.2 : Int) + p.2).natAbs)).dedup

/-- Source `nearby`: the quadkey strings of the distinct neighbour tiles (the source
returns the raw key strings produced by `tile_to_quadkey`). -/
def nearby (q : QuadKey) : List (List Char) :=
  (nearbyTiles q).map fun t => TileSystem.tile_to_quadkey t (TileSystem.quadkey_to_tile q.key).2

/-- Source `is_ancestor`: some level difference when `node`'s key is a strict prefix
of `self`'s key, none otherwise — the source compares `self.key[:len(node.key)]`
with `node.key` and the levels. -/
def is_ancestor (self node : QuadKey) : Option Nat :=
  if self.level ≤ node.level ∨ self.key.take node.key.length ≠ node.key then none
  else some (self.level - node.level)

/-- Source `is_descendent`: delegate to `node.is_ancestor self`. -/
def is_descendent (self node : QuadKey) : Option Nat := node.is_ancestor self

/-- Source `unwind`: the prefixes `key[:l+1]` for `l` over the reversed range of the
key length. -/
def unwind (q : QuadKey) : List QuadKey :=
  (List.range q.key.length).reverse.map fun l => ⟨q.key.take (l + 1)⟩

end QuadKey

/-- Source `from_tile`: wrap the quadkey string of the tile at the level. -/
def from_tile (tile : Nat × Nat) (level : Nat) : QuadKey :=
  ⟨TileSystem.tile_to_quadkey tile level⟩

/-- Source `from_str` / direct construction: the `precondition` decorator of the
`util` module (not under `src/`) is modelled from the spec as explicit
validation that fails with `InvalidKey`. -/
def from_str (s : List Char) : Except QKError QuadKey :=
  if TileSystem.valid_key s then Except.ok ⟨s⟩ else Except.error QKError.InvalidKey

/-- Source `from_geo`: the `precondition` decorator checking `valid_geo` is modelled
from the spec as explicit validation failing with `InvalidCoordinate`; on
success the geo point is projected to a pixel, the pixel to a tile, and the
tile encoded at the requested level. -/
def from_geo (mercatorY : ℚ → ℚ) (geo : ℚ × ℚ) (level : Nat) : Except QKError QuadKey :=
  if TileSystem.valid_geo geo.1 geo.2 then
    Except.ok ⟨TileSystem.tile_to_quadkey
      (TileSystem.pixel_to_tile (TileSystem.geo_to_pixel mercatorY geo level)) level⟩
  else Except.error QKError.InvalidCoordinate

namespace QuadKey

/-- Inner while-loop of `xdifference` when a south-west corner is set:
at column `x`, yield the tile rows from `y` up to and including `stop`. -/
def innerUp (L : Nat) (x y stop : Int) : List QuadKey :=
  if _h : y ≤ stop then from_tile (x.toNat, y.toNat) L :: innerUp L x (y + 1) stop
  else []
termination_by (stop + 1 - y).toNat
decreasing_by simp_wf; omega

/-- Inner while-loop of `xdifference` when a north-west corner is set:
at column `x`, yield the tile rows from `y` down to and including `stop`. -/
def innerDown (L : Nat) (x y stop : Int) : List QuadKey :=
  if _h : stop ≤ y then from_tile (x.toNat, y.toNat) L :: innerDown L x (y - 1) stop
  else []
termination_by (y + 1 - stop).toNat
decreasing_by simp_wf; omega

/-- Outer while-loop of `xdifference` in the (ne, sw) orientation: columns from
`x` down to `stopx`, each column scanned upwards from `ystart` to `ystop`. -/
def outerUp (L : Nat) (x stopx ystart ystop : Int) : List QuadKey :=
  if _h : stopx ≤ x then innerUp L x ystart ystop ++ outerUp L (x - 1) stopx ystart ystop
  else []
termination_by (x + 1 - stopx).toNat
decreasing_by simp_wf; omega

/-- Outer while-loop of `xdifference` in the (se, nw) orientation: columns from
`x` down to `stopx`, each column scanned downwards from `ystart` to `ystop`. -/
def outerDown (L : Nat) (x stopx ystart ystop : Int) : List QuadKey :=
  if _h : stopx ≤ x then innerDown L x ystart ystop ++ outerDown L (x - 1) stopx ystart ystop
  else []
termination_by (x + 1 - stopx).toNat
decreasing_by simp_wf; omega

/-- Source `xdifference`: the `assert first.level == second.level` is modelled as
`Option`; the four `if`/`elif` branches classify the two tiles into the
(ne, sw), (sw, ne), (nw, se) or (se, nw) orientation exactly as the source
does, and the nested while-loops enumerate the closed rectangle.  The final
branch is unreachable. -/
def xdifference (first second : QuadKey) : Option (List QuadKey) :=
  if first.level = second.level then
    let st := first.to_tile.1
    let tt := second.to_tile.1
    some (
      if tt.1 ≤ st.1 ∧ st.2 ≤ tt.2 then
        outerUp first.level st.1 tt.1 st.2 tt.2
      else if st.1 ≤ tt.1 ∧ tt.2 ≤ st.2 then
        outerUp first.level tt.1 st.1 tt.2 st.2
      else if st.1 ≤ tt.1 ∧ st.2 ≤ tt.2 then
        outerDown first.level tt.1 st.1 tt.2 st.2
      else if tt.1 ≤ st.1 ∧ tt.2 ≤ st.2 then
        outerDown first.level st.1 tt.1 st.2 tt.2
      else [])
  else none

/-- Source `difference`: the eager list of `xdifference` (which already is a list
here), with the same assertion behaviour. -/
def difference (self other : QuadKey) : Option (List QuadKey) :=
  xdifference self other

end QuadKey

namespace TileSystem

lemma tile_to_quadkey_length (t : Nat × Nat) : ∀ L, (tile_to_quadkey t L).length = L := by
  intro L
  induction L with
  | zero => rfl
  | succ l ih => simp [tile_to_quadkey, ih]

lemma char_digit_decode (d : Nat) (hd : d ≤ 3) :
    Char.toNat (Char.ofNat (Char.toNat '0' + d)) - Char.toNat '0' = d := by
  interval_cases d <;> decide

lemma quadkey_to_tile_foldl (x y : Nat) : ∀ (L a b : Nat),
    ((tile_to_quadkey (x, y) L).foldl (fun t c =>
      let d := Char.toNat c - Char.toNat '0'
      (t.1 * 2 + d % 2, t.2 * 2 + d / 2 % 2)) (a, b)) =
      (a * 2 ^ L + x % 2 ^ L, b * 2 ^ L + y % 2 ^ L) := by
  intro L
  induction L with
  | zero => intro a b; simp [tile_to_quadkey, Nat.mod_one]
  | succ l ih =>
    intro a b
    have hdx : (if Nat.testBit x l then 1 else 0) = x / 2 ^ l % 2 := by
      rw [Nat.testBit_to_div_mod]
      by_cases h : x / 2 ^ l % 2 = 1
      · simp [h]
      · have h0 : x / 2 ^ l % 2 = 0 := by omega
        simp [h, h0]
    have hdy : (if Nat.testBit y l then 2 else 0) = 2 * (y / 2 ^ l % 2) := by
      rw [Nat.testBit_to_div_mod]
      by_cases h : y / 2 ^ l % 2 = 1
      · simp [h]
      · have h0 : y / 2 ^ l % 2 = 0 := by omega
        simp [h, h0]
    simp only [tile_to_quadkey, List.foldl_cons, hdx, hdy]
    rw [char_digit_decode _ (by omega), ih]
    have e1 : (x / 2 ^ l % 2 + 2 * (y / 2 ^ l % 2)) % 2 = x / 2 ^ l % 2 := by omega
    have e2 : (x / 2 ^ l % 2 + 2 * (y / 2 ^ l % 2)) / 2 % 2 = y / 2 ^ l % 2 := by omega
    rw [e1, e2]
    have hxmod : x % 2 ^ (l + 1) = x % 2 ^ l + 2 ^ l * (x / 2 ^ l % 2) := by
      rw [pow_succ, Nat.mod_mul]
    have hymod : y % 2 ^ (l + 1) = y % 2 ^ l + 2 ^ l * (y / 2 ^ l % 2) := by
      rw [pow_succ, Nat.mod_mul]
    rw [Prod.mk.injEq]
    constructor
    · rw [hxmod, pow_succ]; ring
    · rw [hymod, pow_succ]; ring

lemma quadkey_tile_inverse (x y L : Nat) (hx : x < 2 ^ L) (hy : y < 2 ^ L) :
    quadkey_to_tile (tile_to_quadkey (x, y) L) = ((x, y), L) := by
  unfold quadkey_to_tile
  rw [quadkey_to_tile_foldl, tile_to_quadkey_length]
  simp [Nat.mod_eq_of_lt hx, Nat.mod_eq_of_lt hy]

lemma quadkey_to_tile_foldl_lt (key : List Char) : ∀ (a b : Nat),
    ((key.foldl (fun t c =>
      let d := Char.toNat c - Char.toNat '0'
      (t.1 * 2 + d % 2, t.2 * 2 + d / 2 % 2)) (a, b)).1 < (a + 1) * 2 ^ key.length ∧
     (key.foldl (fun t c =>
      let d := Char.toNat c - Char.toNat '0'
      (t.1 * 2 + d % 2, t.2 * 2 + d / 2 % 2)) (a, b)).2 < (b + 1) * 2 ^ key.length) := by
  induction key with
  | nil => intro a b; simp
  | cons c rest ih =>
    intro a b
    simp only [List.foldl_cons, List.length_cons]
    obtain ⟨h1, h2⟩ := ih (a * 2 + (Char.toNat c - Char.toNat '0') % 2)
      (b * 2 + (Char.toNat c - Char.toNat '0') / 2 % 2)
    constructor
    · calc _ < (a * 2 + (Char.toNat c - Char.toNat '0') % 2 + 1) * 2 ^ rest.length := h1
        _ ≤ ((a + 1) * 2) * 2 ^ rest.length := by
            have : (Char.toNat c - Char.toNat '0') % 2 ≤ 1 := by omega
            exact Nat.mul_le_mul_right _ (by omega)
        _ = (a + 1) * 2 ^ (rest.length + 1) := by ring
    · calc _ < (b * 2 + (Char.toNat c - Char.toNat '0') / 2 % 2 + 1) * 2 ^ rest.length := h2
        _ ≤ ((b + 1) * 2) * 2 ^ rest.length := by
            have : (Char.toNat c - Char.toNat '0') / 2 % 2 ≤ 1 := by omega
            exact Nat.mul_le_mul_right _ (by omega)
        _ = (b + 1) * 2 ^ (rest.length + 1) := by ring
    
lemma quadkey_to_tile_lt (key : List Char) :
    (quadkey_to_tile key).1.1 < 2 ^ key.length ∧ (quadkey_to_tile key).1.2 < 2 ^ key.length := by
  have h := quadkey_to_tile_foldl_lt key 0 0
  simpa [quadkey_to_tile] using h

lemma tile_to_quadkey_chars (t : Nat × Nat) :
    ∀ L, ∀ c ∈ tile_to_quadkey t L, c ∈ (['0', '1', '2', '3'] : List Char) := by
  intro L
  induction L with
  | zero => intro c hc; simp [tile_to_quadkey] at hc
  | succ l ih =>
    intro c hc
    simp only [tile_to_quadkey, List.mem_cons] at hc
    rcases hc with h | h
    · rcases hx : Nat.testBit t.1 l <;> rcases hy : Nat.testBit t.2 l <;>
        subst h <;> simp [hx, hy]
    · exact ih c h

lemma tile_to_quadkey_valid (t : Nat × Nat) (L : Nat) (h1 : 1 ≤ L) (h2 : L ≤ 23) :
    valid_key (tile_to_quadkey t L) = true := by
  simp only [valid_key, Bool.and_eq_true, decide_eq_true_eq, List.all_eq_true]
  refine ⟨⟨by rw [tile_to_quadkey_length]; omega, by rw [tile_to_quadkey_length]; omega⟩, ?_⟩
  intro c hc
  have := tile_to_quadkey_chars t L c hc
  simpa [List.contains] using this

end TileSystem

/-- Claim C2: for every valid level L in [1, 23] and every tile coordinate
(x, y) with x, y < 2^L, encoding the tile as a quadkey and decoding it back is
the identity: from_tile((x, y), L).to_tile() == ((x, y), L). -/
theorem from_tile_to_tile_roundtrip (x y L : Nat) (_hL1 : 1 ≤ L) (_hL2 : L ≤ 23)
    (hx : x < 2 ^ L) (hy : y < 2 ^ L) :
    (from_tile (x, y) L).to_tile = ((x, y), L) :=
  TileSystem.quadkey_tile_inverse x y L hx hy

/-- Witness: the tile round-trip theorem applied at level 2, tile (1, 2). -/
theorem from_tile_to_tile_roundtrip_witness :
    1 ≤ 2 ∧ 2 ≤ 23 ∧ 1 < 2 ^ 2 ∧ 2 < 2 ^ 2 ∧
      (from_tile (1, 2) 2).to_tile = ((1, 2), 2) :=
  ⟨by decide, by decide, by decide, by decide,
    from_tile_to_tile_roundtrip 1 2 2 (by decide) (by decide) (by decide) (by decide)⟩

/-- Claim C3: a.is_ancestor(b) returns the level difference when b's key is a
strict prefix of a's key (then a.level > b.level holds automatically) and the
absent value otherwise, never an error; a.is_descendent(b) delegates to
b.is_ancestor(a). -/
theorem is_ancestor_is_descendent_spec (a b : QuadKey) :
    ((∃ t, t ≠ [] ∧ a.key = b.key ++ t) → a.is_ancestor b = some (a.level - b.level)) ∧
    ((¬ ∃ t, t ≠ [] ∧ a.key = b.key ++ t) → a.is_ancestor b = none) ∧
    a.is_descendent b = b.is_ancestor a := by
  refine ⟨?_, ?_, rfl⟩
  · rintro ⟨t, htne, hkey⟩
    have hlen : a.key.length = b.key.length + t.length := by rw [hkey, List.length_append]
    have htpos : 0 < t.length := List.length_pos.mpr htne
    have hcond : ¬(a.level ≤ b.level ∨ ¬ a.key.take b.key.length = b.key) := by
      push_neg
      constructor
      · show b.level < a.level
        unfold QuadKey.level
        omega
      · rw [hkey, List.take_left]
    unfold QuadKey.is_ancestor
    rw [if_neg hcond]
  · intro h
    unfold QuadKey.is_ancestor
    by_cases hle : a.level ≤ b.level
    · rw [if_pos (Or.inl hle)]
    · by_cases htake : a.key.take b.key.length = b.key
      · exfalso
        apply h
        refine ⟨a.key.drop b.key.length, ?_, ?_⟩
        · have hdlen : (a.key.drop b.key.length).length = a.key.length - b.key.length :=
            List.length_drop _ _
          have hlt : b.key.length < a.key.length := by
            unfold QuadKey.level at hle
            omega
          intro hnil
          rw [hnil] at hdlen
          simp only [List.length_nil] at hdlen
          omega
        · conv_lhs => rw [← List.take_append_drop b.key.length a.key]
          rw [htake]
      · rw [if_pos (Or.inr htake)]

/-- Witness: the ancestor theorem applied at the keys 12 and 1. -/
theorem is_ancestor_is_descendent_witness :
    QuadKey.is_ancestor ⟨['1', '2']⟩ ⟨['1']⟩ = some 1 ∧
    QuadKey.is_descendent ⟨['1', '2']⟩ ⟨['1']⟩ = QuadKey.is_ancestor ⟨['1']⟩ ⟨['1', '2']⟩ :=
  ⟨(is_ancestor_is_descendent_spec ⟨['1', '2']⟩ ⟨['1']⟩).1 ⟨['2'], by decide, rfl⟩,
   (is_ancestor_is_descendent_spec ⟨['1', '2']⟩ ⟨['1']⟩).2.2⟩

/-- Claim C4 counterexample: with a = QuadKey(12030) and b = QuadKey(120) the
code returns a.is_ancestor(b) = some 2 (not none) and a.is_descendent(b) = none
(not some 2), refuting the claimed pair of values. -/
theorem ancestor_concrete_counterexample :
    ¬ (QuadKey.is_ancestor ⟨['1', '2', '0', '3', '0']⟩ ⟨['1', '2', '0']⟩ = none ∧
       QuadKey.is_descendent ⟨['1', '2', '0', '3', '0']⟩ ⟨['1', '2', '0']⟩ = some 2) := by
  decide

/-- Claim C4 (amended): for a = QuadKey(12030) and b = QuadKey(120),
a.is_ancestor(b) returns 2 — b is an ancestor of a by two levels — and
a.is_descendent(b) returns the absent value. -/
theorem ancestor_concrete_amended :
    QuadKey.is_ancestor ⟨['1', '2', '0', '3', '0']⟩ ⟨['1', '2', '0']⟩ = some 2 ∧
    QuadKey.is_descendent ⟨['1', '2', '0', '3', '0']⟩ ⟨['1', '2', '0']⟩ = none := by
  decide

/-- Claim C6: below level 23, children() is the four distinct quadkeys obtained
by appending the digits 0, 1, 2, 3, and each child's parent() is the original
quadkey; at level ≥ 23, children() is empty. -/
theorem children_parent_spec (q : QuadKey) (hv : TileSystem.valid_key q.key = true) :
    (q.level < 23 →
      q.children = [⟨q.key ++ ['0']⟩, ⟨q.key ++ ['1']⟩, ⟨q.key ++ ['2']⟩, ⟨q.key ++ ['3']⟩] ∧
      q.children.length = 4 ∧ q.children.Nodup ∧ ∀ c ∈ q.children, c.parent = q) ∧
    (23 ≤ q.level → q.children = []) := by
  obtain ⟨k⟩ := q
  constructor
  · intro hlt
    have hch : QuadKey.children ⟨k⟩ =
        [⟨k ++ ['0']⟩, ⟨k ++ ['1']⟩, ⟨k ++ ['2']⟩, ⟨k ++ ['3']⟩] := by
      unfold QuadKey.children
      rw [if_neg (by omega)]
      rfl
    refine ⟨hch, by rw [hch]; rfl, ?_, ?_⟩
    · rw [hch]
      simp [QuadKey.mk.injEq]
    · intro c hc
      rw [hch] at hc
      simp only [List.mem_cons, List.not_mem_nil, or_false] at hc
      rcases hc with rfl | rfl | rfl | rfl <;>
        simp [QuadKey.parent, List.dropLast_concat]
  · intro hge
    unfold QuadKey.children
    rw [if_pos hge]

/-- Witness: the children theorem applied at the key 0. -/
theorem children_parent_witness :
    QuadKey.children ⟨['0']⟩ =
      [⟨['0', '0']⟩, ⟨['0', '1']⟩, ⟨['0', '2']⟩, ⟨['0', '3']⟩] :=
  ((children_parent_spec ⟨['0']⟩ (by decide)).1 (by decide)).1

/-- Claim C7: construction from a string fails with InvalidKey exactly when the
string is empty, longer than 23 characters, or contains a character other than
the digits 0–3; otherwise it succeeds with that key and level equal to the
length. -/
theorem from_str_spec (s : List Char) :
    (from_str s = Except.error QKError.InvalidKey ↔
      s = [] ∨ 23 < s.length ∨ ∃ c ∈ s, c ∉ (['0', '1', '2', '3'] : List Char)) ∧
    ((¬ (s = [] ∨ 23 < s.length ∨ ∃ c ∈ s, c ∉ (['0', '1', '2', '3'] : List Char))) →
      from_str s = Except.ok ⟨s⟩ ∧ (QuadKey.mk s).level = s.length) := by
  have hval : TileSystem.valid_key s = true ↔
      ¬(s = [] ∨ 23 < s.length ∨ ∃ c ∈ s, c ∉ (['0', '1', '2', '3'] : List Char)) := by
    simp only [TileSystem.valid_key, Bool.and_eq_true, decide_eq_true_eq, List.all_eq_true]
    push_neg
    constructor
    · rintro ⟨⟨h1, h2⟩, h3⟩
      refine ⟨?_, by omega, ?_⟩
      · intro hnil
        rw [hnil] at h1
        simp at h1
      · intro c hc
        have := h3 c hc
        simpa [List.contains] using this
    · rintro ⟨h1, h2, h3⟩
      have hpos : 1 ≤ s.length := by
        rcases s with _ | ⟨c, rest⟩
        · exact absurd rfl h1
        · simp
      refine ⟨⟨hpos, by omega⟩, ?_⟩
      intro c hc
      have := h3 c hc
      simpa [List.contains] using this
  by_cases h : TileSystem.valid_key s = true
  · have hok : from_str s = Except.ok ⟨s⟩ := by
      unfold from_str
      rw [if_pos h]
    constructor
    · rw [hok]
      constructor
      · intro he
        exact Except.noConfusion he
      · intro hc
        exact absurd hc (hval.mp h)
    · intro _
      exact ⟨hok, rfl⟩
  · have herr : from_str s = Except.error QKError.InvalidKey := by
      unfold from_str
      rw [if_neg h]
    have hcond := not_not.mp fun hn => h (hval.mpr hn)
    constructor
    · exact ⟨fun _ => hcond, fun _ => herr⟩
    · intro hn
      exact absurd hcond hn

/-- Witness: construction succeeds on the key 12. -/
theorem from_str_witness :
    ¬((['1', '2'] : List Char) = [] ∨ 23 < (['1', '2'] : List Char).length ∨
        ∃ c ∈ (['1', '2'] : List Char), c ∉ (['0', '1', '2', '3'] : List Char)) ∧
    from_str ['1', '2'] = Except.ok ⟨['1', '2']⟩ :=
  ⟨by decide, ((from_str_spec ['1', '2']).2 (by decide)).1⟩

/-- Claim C8: difference on quadkeys of different levels fails the equal-level
assertion (modelled as the absent value) instead of returning a result. -/
theorem difference_level_assert (a b : QuadKey) (h : a.level ≠ b.level) :
    a.difference b = none := by
  unfold QuadKey.difference QuadKey.xdifference
  rw [if_neg h]

/-- Witness: the assertion theorem applied at keys 0 and 01. -/
theorem difference_level_assert_witness :
    QuadKey.level ⟨['0']⟩ ≠ QuadKey.level ⟨['0', '1']⟩ ∧
    QuadKey.difference ⟨['0']⟩ ⟨['0', '1']⟩ = none :=
  ⟨by decide, difference_level_assert ⟨['0']⟩ ⟨['0', '1']⟩ (by decide)⟩

/-- Claim C10: unwind() is the quadkey itself followed by every proper prefix
of its key in strictly decreasing length down to length 1; in particular for
the key 123 it is [123, 12, 1]. -/
theorem unwind_spec (q : QuadKey) :
    q.unwind.length = q.level ∧
    (∀ i, ∀ hi : i < q.unwind.length,
      (q.unwind.get ⟨i, hi⟩).key = q.key.take (q.level - i)) ∧
    QuadKey.unwind ⟨['1', '2', '3']⟩ = [⟨['1', '2', '3']⟩, ⟨['1', '2']⟩, ⟨['1']⟩] := by
  refine ⟨by simp [QuadKey.unwind, QuadKey.level], ?_, by decide⟩
  intro i hi
  have hlen : q.unwind.length = q.key.length := by simp [QuadKey.unwind]
  rw [hlen] at hi
  unfold QuadKey.unwind
  rw [List.get_eq_getElem]
  simp only [List.getElem_map, List.getElem_reverse, List.getElem_range, List.length_range]
  show q.key.take (q.key.length - 1 - i + 1) = q.key.take (q.level - i)
  congr 1
  unfold QuadKey.level
  omega

/-- Witness: the unwind theorem applied at the key 123. -/
theorem unwind_spec_witness :
    QuadKey.unwind ⟨['1', '2', '3']⟩ = [⟨['1', '2', '3']⟩, ⟨['1', '2']⟩, ⟨['1']⟩] :=
  (unwind_spec ⟨['1', '2', '3']⟩).2.2

/-- Claim C5 counterexample: for the quadkey 3 (level 1) the list returned by
nearby() contains duplicate quadkeys — the reflected out-of-range neighbour
tiles alias under encoding — so the returned elements are not all distinct. -/
theorem nearby_distinct_counterexample : ¬ (QuadKey.nearby ⟨['3']⟩).Nodup := by
  decide

/-- Claim C5 (amended): nearby() has at most 8 elements, each a valid quadkey
at the same level; the underlying neighbour tiles are the absolute values of
the eight non-zero offsets applied to the tile, and duplicate tiles are
collapsed so the underlying tiles are distinct — but the returned quadkeys can
still repeat when a reflected tile lies outside the grid range. -/
theorem nearby_spec (q : QuadKey) (hv : TileSystem.valid_key q.key = true) :
    q.nearby.length ≤ 8 ∧
    q.nearbyTiles.Nodup ∧
    (∀ t ∈ q.nearbyTiles,
      ∃ p ∈ ([(-1, -1), (-1, 0), (-1, 1), (0, -1), (0, 1), (1, -1), (1, 0), (1, 1)] :
          List (Int × Int)),
        t = (((q.to_tile.1.1 : Int) + p.1).natAbs, ((q.to_tile.1.2 : Int) + p.2).natAbs)) ∧
    ∀ e ∈ q.nearby, TileSystem.valid_key e = true ∧ e.length = q.level := by
  have hlen18 : 1 ≤ q.key.length ∧ q.key.length ≤ 23 := by
    simp only [TileSystem.valid_key, Bool.and_eq_true, decide_eq_true_eq] at hv
    exact ⟨hv.1.1, hv.1.2⟩
  refine ⟨?_, ?_, ?_, ?_⟩
  · have h1 : q.nearby.length = q.nearbyTiles.length := by simp [QuadKey.nearby]
    have h2 : q.nearbyTiles.length ≤ 8 := by
      unfold QuadKey.nearbyTiles
      refine le_trans (List.Sublist.length_le (List.dedup_sublist _)) ?_
      simp
    omega
  · unfold QuadKey.nearbyTiles
    exact List.nodup_dedup _
  · intro t ht
    unfold QuadKey.nearbyTiles at ht
    rw [List.mem_dedup] at ht
    simp only [List.mem_map] at ht
    obtain ⟨p, hp, heq⟩ := ht
    exact ⟨p, hp, heq.symm⟩
  · intro e he
    unfold QuadKey.nearby at he
    simp only [List.mem_map] at he
    obtain ⟨t, ht, rfl⟩ := he
    constructor
    · exact TileSystem.tile_to_quadkey_valid t _ hlen18.1 hlen18.2
    · rw [TileSystem.tile_to_quadkey_length]
      rfl

/-- Witness: the nearby theorem applied at the key 3. -/
theorem nearby_spec_witness :
    TileSystem.valid_key (QuadKey.mk ['3']).key = true ∧
    (QuadKey.nearby ⟨['3']⟩).length ≤ 8 ∧ (QuadKey.nearbyTiles ⟨['3']⟩).Nodup :=
  ⟨by decide, (nearby_spec ⟨['3']⟩ (by decide)).1, (nearby_spec ⟨['3']⟩ (by decide)).2.1⟩

/-- Claim C9: from_geo fails with InvalidCoordinate exactly when the latitude
is outside [-90, 90] or the longitude outside [-180, 180]; for in-range points
it succeeds, producing the quadkey of the tile containing the projected point
at that level (the key has exactly `level` digits). -/
theorem from_geo_spec (mercatorY : ℚ → ℚ) (geo : ℚ × ℚ) (level : Nat) :
    ((-90 ≤ geo.1 ∧ geo.1 ≤ 90 ∧ -180 ≤ geo.2 ∧ geo.2 ≤ 180) →
      from_geo mercatorY geo level =
        Except.ok ⟨TileSystem.tile_to_quadkey
          (TileSystem.pixel_to_tile (TileSystem.geo_to_pixel mercatorY geo level)) level⟩ ∧
      (QuadKey.mk (TileSystem.tile_to_quadkey
          (TileSystem.pixel_to_tile (TileSystem.geo_to_pixel mercatorY geo level)) level)).level
        = level) ∧
    (¬(-90 ≤ geo.1 ∧ geo.1 ≤ 90 ∧ -180 ≤ geo.2 ∧ geo.2 ≤ 180) →
      from_geo mercatorY geo level = Except.error QKError.InvalidCoordinate) := by
  have hv : TileSystem.valid_geo geo.1 geo.2 = true ↔
      (-90 ≤ geo.1 ∧ geo.1 ≤ 90 ∧ -180 ≤ geo.2 ∧ geo.2 ≤ 180) := by
    simp [TileSystem.valid_geo, and_assoc]
  constructor
  · intro h
    constructor
    · unfold from_geo
      rw [if_pos (hv.mpr h)]
    · show (TileSystem.tile_to_quadkey _ level).length = level
      exact TileSystem.tile_to_quadkey_length _ level
  · intro h
    unfold from_geo
    rw [if_neg fun hc => h (hv.mp hc)]

/-- Witness: from_geo at the equator with a trivial Mercator map. -/
theorem from_geo_spec_witness :
    ((-90 : ℚ) ≤ 0 ∧ (0 : ℚ) ≤ 90 ∧ (-180 : ℚ) ≤ 0 ∧ (0 : ℚ) ≤ 180) ∧
    from_geo (fun _ => 0) (0, 0) 1 =
      Except.ok ⟨TileSystem.tile_to_quadkey
        (TileSystem.pixel_to_tile (TileSystem.geo_to_pixel (fun _ => 0) (0, 0) 1)) 1⟩ :=
  ⟨by norm_num, ((from_geo_spec (fun _ => 0) (0, 0) 1).1 (by norm_num)).1⟩

namespace QuadKey

lemma innerUp_length (L : Nat) (x stop : Int) : ∀ y : Int,
    (innerUp L x y stop).length = (stop + 1 - y).toNat := by
  have H : ∀ n (y : Int), (stop + 1 - y).toNat = n → (innerUp L x y stop).length = n := by
    intro n
    induction n with
    | zero =>
      intro y hy
      rw [innerUp.eq_def, dif_neg (by omega)]
      rfl
    | succ m ih =>
      intro y hy
      rw [innerUp.eq_def, dif_pos (show y ≤ stop by omega)]
      simp only [List.length_cons]
      rw [ih (y + 1) (by omega)]
  intro y
  exact H ((stop + 1 - y).toNat) y rfl

lemma innerDown_length (L : Nat) (x stop : Int) : ∀ y : Int,
    (innerDown L x y stop).length = (y + 1 - stop).toNat := by
  have H : ∀ n (y : Int), (y + 1 - stop).toNat = n → (innerDown L x y stop).length = n := by
    intro n
    induction n with
    | zero =>
      intro y hy
      rw [innerDown.eq_def, dif_neg (by omega)]
      rfl
    | succ m ih =>
      intro y hy
      rw [innerDown.eq_def, dif_pos (show stop ≤ y by omega)]
      simp only [List.length_cons]
      rw [ih (y - 1) (by omega)]
  intro y
  exact H ((y + 1 - stop).toNat) y rfl

lemma innerUp_mem (L : Nat) (x stop : Int) (q : QuadKey) : ∀ y : Int,
    (q ∈ innerUp L x y stop ↔
      ∃ v : Int, y ≤ v ∧ v ≤ stop ∧ q = from_tile (x.toNat, v.toNat) L) := by
  have H : ∀ n (y : Int), (stop + 1 - y).toNat = n →
      (q ∈ innerUp L x y stop ↔
        ∃ v : Int, y ≤ v ∧ v ≤ stop ∧ q = from_tile (x.toNat, v.toNat) L) := by
    intro n
    induction n with
    | zero =>
      intro y hy
      rw [innerUp.eq_def, dif_neg (by omega)]
      simp only [List.not_mem_nil, false_iff]
      rintro ⟨v, h1, h2, _⟩
      omega
    | succ m ih =>
      intro y hy
      rw [innerUp.eq_def, dif_pos (show y ≤ stop by omega)]
      rw [List.mem_cons, ih (y + 1) (by omega)]
      constructor
      · rintro (rfl | ⟨v, h1, h2, rfl⟩)
        · exact ⟨y, le_refl y, by omega, rfl⟩
        · exact ⟨v, by omega, h2, rfl⟩
      · rintro ⟨v, h1, h2, rfl⟩
        rcases eq_or_lt_of_le h1 with rfl | hlt
        · exact Or.inl rfl
        · exact Or.inr ⟨v, by omega, h2, rfl⟩
  intro y
  exact H ((stop + 1 - y).toNat) y rfl

lemma innerDown_mem (L : Nat) (x stop : Int) (q : QuadKey) : ∀ y : Int,
    (q ∈ innerDown L x y stop ↔
      ∃ v : Int, stop ≤ v ∧ v ≤ y ∧ q = from_tile (x.toNat, v.toNat) L) := by
  have H : ∀ n (y : Int), (y + 1 - stop).toNat = n →
      (q ∈ innerDown L x y stop ↔
        ∃ v : Int, stop ≤ v ∧ v ≤ y ∧ q = from_tile (x.toNat, v.toNat) L) := by
    intro n
    induction n with
    | zero =>
      intro y hy
      rw [innerDown.eq_def, dif_neg (by omega)]
      simp only [List.not_mem_nil, false_iff]
      rintro ⟨v, h1, h2, _⟩
      omega
    | succ m ih =>
      intro y hy
      rw [innerDown.eq_def, dif_pos (show stop ≤ y by omega)]
      rw [List.mem_cons, ih (y - 1) (by omega)]
      constructor
      · rintro (rfl | ⟨v, h1, h2, rfl⟩)
        · exact ⟨y, by omega, le_refl y, rfl⟩
        · exact ⟨v, h1, by omega, rfl⟩
      · rintro ⟨v, h1, h2, rfl⟩
        rcases eq_or_lt_of_le h2 with rfl | hlt
        · exact Or.inl rfl
        · exact Or.inr ⟨v, h1, by omega, rfl⟩
  intro y
  exact H ((y + 1 - stop).toNat) y rfl

lemma outerUp_length (L : Nat) (stopx ystart ystop : Int) : ∀ x : Int,
    (outerUp L x stopx ystart ystop).length =
      (x + 1 - stopx).toNat * (ystop + 1 - ystart).toNat := by
  have H : ∀ n (x : Int), (x + 1 - stopx).toNat = n →
      (outerUp L x stopx ystart ystop).length = n * (ystop + 1 - ystart).toNat := by
    intro n
    induction n with
    | zero =>
      intro x hx
      rw [outerUp.eq_def, dif_neg (by omega)]
      simp
    | succ m ih =>
      intro x hx
      rw [outerUp.eq_def, dif_pos (show stopx ≤ x by omega)]
      rw [List.length_append, innerUp_length, ih (x - 1) (by omega)]
      ring
  intro x
  exact H ((x + 1 - stopx).toNat) x rfl

lemma outerDown_length (L : Nat) (stopx ystart ystop : Int) : ∀ x : Int,
    (outerDown L x stopx ystart ystop).length =
      (x + 1 - stopx).toNat * (ystart + 1 - ystop).toNat := by
  have H : ∀ n (x : Int), (x + 1 - stopx).toNat = n →
      (outerDown L x stopx ystart ystop).length = n * (ystart + 1 - ystop).toNat := by
    intro n
    induction n with
    | zero =>
      intro x hx
      rw [outerDown.eq_def, dif_neg (by omega)]
      simp
    | succ m ih =>
      intro x hx
      rw [outerDown.eq_def, dif_pos (show stopx ≤ x by omega)]
      rw [List.length_append, innerDown_length, ih (x - 1) (by omega)]
      ring
  intro x
  exact H ((x + 1 - stopx).toNat) x rfl

lemma outerUp_mem (L : Nat) (stopx ystart ystop : Int) (q : QuadKey) : ∀ x : Int,
    (q ∈ outerUp L x stopx ystart ystop ↔
      ∃ u v : Int, stopx ≤ u ∧ u ≤ x ∧ ystart ≤ v ∧ v ≤ ystop ∧
        q = from_tile (u.toNat, v.toNat) L) := by
  have H : ∀ n (x : Int), (x + 1 - stopx).toNat = n →
      (q ∈ outerUp L x stopx ystart ystop ↔
        ∃ u v : Int, stopx ≤ u ∧ u ≤ x ∧ ystart ≤ v ∧ v ≤ ystop ∧
          q = from_tile (u.toNat, v.toNat) L) := by
    intro n
    induction n with
    | zero =>
      intro x hx
      rw [outerUp.eq_def, dif_neg (by omega)]
      simp only [List.not_mem_nil, false_iff]
      rintro ⟨u, v, h1, h2, _⟩
      omega
    | succ m ih =>
      intro x hx
      rw [outerUp.eq_def, dif_pos (show stopx ≤ x by omega), List.mem_append,
        innerUp_mem, ih (x - 1) (by omega)]
      constructor
      · rintro (⟨v, h1, h2, rfl⟩ | ⟨u, v, h1, h2, h3, h4, rfl⟩)
        · exact ⟨x, v, by omega, le_refl x, h1, h2, rfl⟩
        · exact ⟨u, v, h1, by omega, h3, h4, rfl⟩
      · rintro ⟨u, v, h1, h2, h3, h4, rfl⟩
        rcases eq_or_lt_of_le h2 with rfl | hlt
        · exact Or.inl ⟨v, h3, h4, rfl⟩
        · exact Or.inr ⟨u, v, h1, by omega, h3, h4, rfl⟩
  intro x
  exact H ((x + 1 - stopx).toNat) x rfl

lemma outerDown_mem (L : Nat) (stopx ystart ystop : Int) (q : QuadKey) : ∀ x : Int,
    (q ∈ outerDown L x stopx ystart ystop ↔
      ∃ u v : Int, stopx ≤ u ∧ u ≤ x ∧ ystop ≤ v ∧ v ≤ ystart ∧
        q = from_tile (u.toNat, v.toNat) L) := by
  have H : ∀ n (x : Int), (x + 1 - stopx).toNat = n →
      (q ∈ outerDown L x stopx ystart ystop ↔
        ∃ u v : Int, stopx ≤ u ∧ u ≤ x ∧ ystop ≤ v ∧ v ≤ ystart ∧
          q = from_tile (u.toNat, v.toNat) L) := by
    intro n
    induction n with
    | zero =>
      intro x hx
      rw [outerDown.eq_def, dif_neg (by omega)]
      simp only [List.not_mem_nil, false_iff]
      rintro ⟨u, v, h1, h2, _⟩
      omega
    | succ m ih =>
      intro x hx
      rw [outerDown.eq_def, dif_pos (show stopx ≤ x by omega), List.mem_append,
        innerDown_mem, ih (x - 1) (by omega)]
      constructor
      · rintro (⟨v, h1, h2, rfl⟩ | ⟨u, v, h1, h2, h3, h4, rfl⟩)
        · exact ⟨x, v, by omega, le_refl x, h1, h2, rfl⟩
        · exact ⟨u, v, h1, by omega, h3, h4, rfl⟩
      · rintro ⟨u, v, h1, h2, h3, h4, rfl⟩
        rcases eq_or_lt_of_le h2 with rfl | hlt
        · exact Or.inl ⟨v, h3, h4, rfl⟩
        · exact Or.inr ⟨u, v, h1, by omega, h3, h4, rfl⟩
  intro x
  exact H ((x + 1 - stopx).toNat) x rfl

end QuadKey

namespace QuadKey

lemma to_tile_lt (q : QuadKey) :
    q.to_tile.1.1 < 2 ^ q.level ∧ q.to_tile.1.2 < 2 ^ q.level :=
  TileSystem.quadkey_to_tile_lt q.key

lemma outerUp_rect (L : Nat) (X1 X2 Y1 Y2 : Nat) (hx : X2 ≤ X1) (hy : Y1 ≤ Y2)
    (hX1 : X1 < 2 ^ L) (hY2 : Y2 < 2 ^ L) :
    (outerUp L X1 X2 Y1 Y2).length = (X1 - X2 + 1) * (Y2 - Y1 + 1) ∧
    ∀ t : Nat × Nat,
      (∃ q ∈ outerUp L X1 X2 Y1 Y2, q.to_tile.1 = t) ↔
        X2 ≤ t.1 ∧ t.1 ≤ X1 ∧ Y1 ≤ t.2 ∧ t.2 ≤ Y2 := by
  constructor
  · rw [outerUp_length]
    have e1 : ((X1 : Int) + 1 - X2).toNat = X1 - X2 + 1 := by omega
    have e2 : ((Y2 : Int) + 1 - Y1).toNat = Y2 - Y1 + 1 := by omega
    rw [e1, e2]
  · rintro ⟨t1, t2⟩
    constructor
    · rintro ⟨qq, hq, hqt⟩
      rw [outerUp_mem] at hq
      obtain ⟨u, v, h1, h2, h3, h4, rfl⟩ := hq
      have hu2 : u.toNat < 2 ^ L := by omega
      have hv2 : v.toNat < 2 ^ L := by omega
      rw [show (from_tile (u.toNat, v.toNat) L).to_tile = ((u.toNat, v.toNat), L) from
        TileSystem.quadkey_tile_inverse u.toNat v.toNat L hu2 hv2] at hqt
      simp only [Prod.mk.injEq] at hqt
      obtain ⟨rfl, rfl⟩ := hqt
      refine ⟨by omega, by omega, by omega, by omega⟩
    · rintro ⟨h1, h2, h3, h4⟩
      have ht1 : t1 < 2 ^ L := by omega
      have ht2 : t2 < 2 ^ L := by omega
      refine ⟨from_tile (t1, t2) L, ?_, ?_⟩
      · rw [outerUp_mem]
        refine ⟨(t1 : Int), (t2 : Int), by omega, by omega, by omega, by omega, ?_⟩
        norm_num
      · rw [show (from_tile (t1, t2) L).to_tile = ((t1, t2), L) from
          TileSystem.quadkey_tile_inverse t1 t2 L ht1 ht2]

lemma outerDown_rect (L : Nat) (X1 X2 Y1 Y2 : Nat) (hx : X2 ≤ X1) (hy : Y2 ≤ Y1)
    (hX1 : X1 < 2 ^ L) (hY1 : Y1 < 2 ^ L) :
    (outerDown L X1 X2 Y1 Y2).length = (X1 - X2 + 1) * (Y1 - Y2 + 1) ∧
    ∀ t : Nat × Nat,
      (∃ q ∈ outerDown L X1 X2 Y1 Y2, q.to_tile.1 = t) ↔
        X2 ≤ t.1 ∧ t.1 ≤ X1 ∧ Y2 ≤ t.2 ∧ t.2 ≤ Y1 := by
  constructor
  · rw [outerDown_length]
    have e1 : ((X1 : Int) + 1 - X2).toNat = X1 - X2 + 1 := by omega
    have e2 : ((Y1 : Int) + 1 - Y2).toNat = Y1 - Y2 + 1 := by omega
    rw [e1, e2]
  · rintro ⟨t1, t2⟩
    constructor
    · rintro ⟨qq, hq, hqt⟩
      rw [outerDown_mem] at hq
      obtain ⟨u, v, h1, h2, h3, h4, rfl⟩ := hq
      have hu2 : u.toNat < 2 ^ L := by omega
      have hv2 : v.toNat < 2 ^ L := by omega
      rw [show (from_tile (u.toNat, v.toNat) L).to_tile = ((u.toNat, v.toNat), L) from
        TileSystem.quadkey_tile_inverse u.toNat v.toNat L hu2 hv2] at hqt
      simp only [Prod.mk.injEq] at hqt
      obtain ⟨rfl, rfl⟩ := hqt
      refine ⟨by omega, by omega, by omega, by omega⟩
    · rintro ⟨h1, h2, h3, h4⟩
      have ht1 : t1 < 2 ^ L := by omega
      have ht2 : t2 < 2 ^ L := by omega
      refine ⟨from_tile (t1, t2) L, ?_, ?_⟩
      · rw [outerDown_mem]
        refine ⟨(t1 : Int), (t2 : Int), by omega, by omega, by omega, by omega, ?_⟩
        norm_num
      · rw [show (from_tile (t1, t2) L).to_tile = ((t1, t2), L) from
          TileSystem.quadkey_tile_inverse t1 t2 L ht1 ht2]

end QuadKey

/-- Claim C1: for same-level quadkeys the difference enumeration yields exactly
(|Dx|+1)(|Dy|+1) quadkeys and the tiles of the yielded quadkeys are exactly the
closed axis-aligned rectangle spanned by the two tiles. -/
theorem difference_rectangle (a b : QuadKey) (hl : a.level = b.level) :
    ∃ l, a.difference b = some l ∧
      l.length = ((((a.to_tile.1.1 : Int) - (b.to_tile.1.1 : Int)).natAbs + 1) *
                  (((a.to_tile.1.2 : Int) - (b.to_tile.1.2 : Int)).natAbs + 1)) ∧
      ∀ t : Nat × Nat,
        (∃ q ∈ l, q.to_tile.1 = t) ↔
          (min a.to_tile.1.1 b.to_tile.1.1 ≤ t.1 ∧ t.1 ≤ max a.to_tile.1.1 b.to_tile.1.1 ∧
           min a.to_tile.1.2 b.to_tile.1.2 ≤ t.2 ∧ t.2 ≤ max a.to_tile.1.2 b.to_tile.1.2) := by
  obtain ⟨hax, hay⟩ := QuadKey.to_tile_lt a
  obtain ⟨hbx, hby⟩ := QuadKey.to_tile_lt b
  rw [← hl] at hbx hby
  by_cases h1 : b.to_tile.1.1 ≤ a.to_tile.1.1 ∧ a.to_tile.1.2 ≤ b.to_tile.1.2
  · have hd : a.difference b = some (QuadKey.outerUp a.level a.to_tile.1.1 b.to_tile.1.1
        a.to_tile.1.2 b.to_tile.1.2) := by
      unfold QuadKey.difference QuadKey.xdifference
      rw [if_pos hl]
      simp only []
      rw [if_pos h1]
    obtain ⟨hlen, hmem⟩ := QuadKey.outerUp_rect a.level a.to_tile.1.1 b.to_tile.1.1
      a.to_tile.1.2 b.to_tile.1.2 h1.1 h1.2 hax hby
    refine ⟨_, hd, ?_, ?_⟩
    · rw [hlen]
      congr 1 <;> omega
    · intro t
      rw [hmem t]
      omega
  · by_cases h2 : a.to_tile.1.1 ≤ b.to_tile.1.1 ∧ b.to_tile.1.2 ≤ a.to_tile.1.2
    · have hd : a.difference b = some (QuadKey.outerUp a.level b.to_tile.1.1 a.to_tile.1.1
          b.to_tile.1.2 a.to_tile.1.2) := by
        unfold QuadKey.difference QuadKey.xdifference
        rw [if_pos hl]
        simp only []
        rw [if_neg h1, if_pos h2]
      obtain ⟨hlen, hmem⟩ := QuadKey.outerUp_rect a.level b.to_tile.1.1 a.to_tile.1.1
        b.to_tile.1.2 a.to_tile.1.2 h2.1 h2.2 hbx hay
      refine ⟨_, hd, ?_, ?_⟩
      · rw [hlen]
        congr 1 <;> omega
      · intro t
        rw [hmem t]
        omega
    · by_cases h3 : a.to_tile.1.1 ≤ b.to_tile.1.1 ∧ a.to_tile.1.2 ≤ b.to_tile.1.2
      · have hd : a.difference b = some (QuadKey.outerDown a.level b.to_tile.1.1 a.to_tile.1.1
            b.to_tile.1.2 a.to_tile.1.2) := by
          unfold QuadKey.difference QuadKey.xdifference
          rw [if_pos hl]
          simp only []
          rw [if_neg h1, if_neg h2, if_pos h3]
        obtain ⟨hlen, hmem⟩ := QuadKey.outerDown_rect a.level b.to_tile.1.1 a.to_tile.1.1
          b.to_tile.1.2 a.to_tile.1.2 h3.1 h3.2 hbx hby
        refine ⟨_, hd, ?_, ?_⟩
        · rw [hlen]
          congr 1 <;> omega
        · intro t
          rw [hmem t]
          omega
      · by_cases h4 : b.to_tile.1.1 ≤ a.to_tile.1.1 ∧ b.to_tile.1.2 ≤ a.to_tile.1.2
        · have hd : a.difference b = some (QuadKey.outerDown a.level a.to_tile.1.1
              b.to_tile.1.1 a.to_tile.1.2 b.to_tile.1.2) := by
            unfold QuadKey.difference QuadKey.xdifference
            rw [if_pos hl]
            simp only []
            rw [if_neg h1, if_neg h2, if_neg h3, if_pos h4]
          obtain ⟨hlen, hmem⟩ := QuadKey.outerDown_rect a.level a.to_tile.1.1 b.to_tile.1.1
            a.to_tile.1.2 b.to_tile.1.2 h4.1 h4.2 hax hay
          refine ⟨_, hd, ?_, ?_⟩
          · rw [hlen]
            congr 1 <;> omega
          · intro t
            rw [hmem t]
            omega
        · exfalso
          omega

/-- Witness: the difference theorem applied at the keys 0 and 3 of level 1,
whose tiles are (0, 0) and (1, 1), giving a 2-by-2 rectangle. -/
theorem difference_rectangle_witness :
    QuadKey.level ⟨['0']⟩ = QuadKey.level ⟨['3']⟩ ∧
    ∃ l, QuadKey.difference ⟨['0']⟩ ⟨['3']⟩ = some l ∧ l.length = 4 := by
  refine ⟨rfl, ?_⟩
  obtain ⟨l, hd, hlen, _⟩ := difference_rectangle ⟨['0']⟩ ⟨['3']⟩ rfl
  exact ⟨l, hd, by rw [hlen]; decide⟩
